import Mathlib

/-!
# Verification of the fixed-capacity first-fit memory allocator

Shallow embedding of `src/memory_manager.c`.  The allocator keeps a singly
linked chain of block descriptors (`MemBlock` in the C source: offset into the
pool, size in bytes, free flag, next pointer).  We model the chain as a Lean
`List` of descriptors in chain order, pool addresses as byte offsets (`Nat`,
the C address is `memory_pool + offset`), the C `NULL` result as `none`, and
the possible failure of the descriptor-bookkeeping `malloc` inside
`mem_alloc`/`mem_resize` as an explicit `mallocOk : Bool` parameter (each
execution path of the C code performs at most one such `malloc`).
-/

/-- A block descriptor, mirroring `struct MemBlock` of the C source (the
`next` pointer is represented by list adjacency). -/
structure MemBlock where
  offset : Nat
  size : Nat
  is_free : Bool
deriving DecidableEq

/-- The block ledger: the chain `block_list`, in chain order. -/
abbrev Ledger := List MemBlock

/-- `create_initial_block`/`mem_init`: one free block spanning the pool. -/
def mem_init (c : Nat) : Ledger := [⟨0, c, true⟩]

/-- The `size == 0` loop of `mem_alloc`: return the offset of the first free
block, if any (the C code returns `memory_pool + curr->offset`). -/
def allocZero : Ledger → Option Nat
  | [] => none
  | curr :: rest => if curr.is_free then some curr.offset else allocZero rest

/-- The main loop of `mem_alloc` (steps 2-8 of the C source), for a nonzero
request `n`.  Returns the new chain and the returned offset.  The skip
condition, the split of a strictly larger free block, the exact-fit marking
and the `malloc` failure (`ok = false`: chain unchanged, `NULL` returned) are
translated one to one from the source. -/
def allocLoop (n : Nat) (ok : Bool) : Ledger → Ledger × Option Nat
  | [] => ([], none)
  | curr :: rest =>
    if curr.is_free = false ∨ curr.size < n then
      let r := allocLoop n ok rest
      (curr :: r.1, r.2)
    else if n < curr.size then
      if ok then
        (⟨curr.offset, n, false⟩ :: ⟨curr.offset + n, curr.size - n, true⟩ :: rest,
          some curr.offset)
      else (curr :: rest, none)
    else
      (⟨curr.offset, curr.size, false⟩ :: rest, some curr.offset)

/-- `mem_alloc(size)`: special-cased zero-size request, otherwise the
first-fit loop.  Result: (new chain, returned offset or `none` for `NULL`). -/
def mem_alloc (n : Nat) (ok : Bool) (l : Ledger) : Ledger × Option Nat :=
  if n = 0 then (l, allocZero l) else allocLoop n ok l

/-- Step 4 of `mem_free`: after marking the matched block free, absorb the
next block when it is free. -/
def mergeNextF (b : MemBlock) (rest : Ledger) : Ledger :=
  match rest with
  | nx :: rest' =>
    if nx.is_free then ⟨b.offset, b.size + nx.size, true⟩ :: rest'
    else ⟨b.offset, b.size, true⟩ :: nx :: rest'
  | [] => [⟨b.offset, b.size, true⟩]

/-- The scan of `mem_free` past the first node: each step sees the current
node `p` as the `prev` of the next node, exactly as the C loop keeps `prev`.
A match that is already free is left alone (step 2); otherwise the block is
freed and merged with its free neighbours (steps 3-5). -/
def freeGo (a : Nat) : Ledger → Ledger
  | [] => []
  | [p] => [p]
  | p :: curr :: rest =>
    if curr.offset = a then
      if curr.is_free then p :: curr :: rest
      else
        match mergeNextF curr rest with
        | c1 :: rest1 =>
          if p.is_free then ⟨p.offset, p.size + c1.size, true⟩ :: rest1
          else p :: c1 :: rest1
        | [] => [p]
    else p :: freeGo a (curr :: rest)

/-- `mem_free(ptr)`: `NULL` is a no-op; the head of the chain has no `prev`,
every later node is handled by `freeGo` with its predecessor at hand. -/
def mem_free (ptr : Option Nat) (l : Ledger) : Ledger :=
  match ptr with
  | none => l
  | some a =>
    match l with
    | [] => []
    | curr :: rest =>
      if curr.offset = a then
        if curr.is_free then curr :: rest else mergeNextF curr rest
      else freeGo a (curr :: rest)

/-- Outcome of the `mem_resize` search loop: an in-place result (steps 4-5 of
the C source), the relocation fallback (step 6, recording `old_size`), or a
chain without the address (step 7). -/
inductive RStep where
  | inplace (l : Ledger) (r : Option Nat)
  | relocate (old_size : Nat)
  | notFound

/-- The search loop of `mem_resize` for a nonzero `n`: shrink in place
(splitting off the leftover), grow by merging with a free next block
(splitting off the remainder), or fall back to relocation.  `ok = false`
models failure of the bookkeeping `malloc`; note that in the grow path the
merge has already mutated the chain when that `malloc` fails, exactly as in
the C source. -/
def resizeLoop (a n : Nat) (ok : Bool) : Ledger → RStep
  | [] => .notFound
  | curr :: rest =>
    if curr.offset = a then
      if n ≤ curr.size then
        if n < curr.size then
          if ok then
            .inplace (⟨curr.offset, n, curr.is_free⟩ ::
              ⟨curr.offset + n, curr.size - n, true⟩ :: rest) (some a)
          else .inplace (curr :: rest) none
        else .inplace (curr :: rest) (some a)
      else
        match rest with
        | nx :: rest' =>
          if nx.is_free = true ∧ n ≤ curr.size + nx.size then
            if n < curr.size + nx.size then
              if ok then
                .inplace (⟨curr.offset, n, curr.is_free⟩ ::
                  ⟨curr.offset + n, curr.size + nx.size - n, true⟩ :: rest') (some a)
              else .inplace (⟨curr.offset, curr.size + nx.size, curr.is_free⟩ :: rest') none
            else .inplace (⟨curr.offset, curr.size + nx.size, curr.is_free⟩ :: rest') (some a)
          else .relocate curr.size
        | [] => .relocate curr.size
    else
      match resizeLoop a n ok rest with
      | .inplace l r => .inplace (curr :: l) r
      | s => s

/-- Result of `mem_resize`: the new chain, the returned address, and whether
the relocation `memcpy` was executed. -/
structure ResizeOut where
  ledger : Ledger
  ret : Option Nat
  copied : Bool
deriving DecidableEq

/-- `mem_resize(ptr, size)`: `NULL` pointer delegates to `mem_alloc`;
zero size delegates to `mem_free` and returns `NULL`; otherwise the search
loop runs, and the relocation fallback allocates a fresh block, copies and
frees the old one (returning `NULL` without copying when that allocation
fails). -/
def mem_resize (ptr : Option Nat) (n : Nat) (ok : Bool) (l : Ledger) : ResizeOut :=
  match ptr with
  | none => ⟨(mem_alloc n ok l).1, (mem_alloc n ok l).2, false⟩
  | some a =>
    if n = 0 then ⟨mem_free (some a) l, none, false⟩
    else
      match resizeLoop a n ok l with
      | .inplace l1 r => ⟨l1, r, false⟩
      | .relocate _old =>
        match (mem_alloc n ok l).2 with
        | none => ⟨(mem_alloc n ok l).1, none, false⟩
        | some newOff => ⟨mem_free (some a) (mem_alloc n ok l).1, some newOff, true⟩
      | .notFound => ⟨l, none, false⟩

/-- `coversTo s c l`: the chain `l`, read in order, exactly partitions
`[s, c)`: the first descriptor sits at `s`, each descriptor starts where the
previous one ends, every length is positive, and the last one ends at `c`. -/
def coversTo (s c : Nat) : Ledger → Bool
  | [] => s == c
  | b :: rest => (b.offset == s) && (decide (0 < b.size)) && coversTo (b.offset + b.size) c rest

/-- No two adjacent descriptors are both free. -/
def noAdjFree : Ledger → Bool
  | [] => true
  | [_] => true
  | b1 :: b2 :: rest => (!(b1.is_free && b2.is_free)) && noAdjFree (b2 :: rest)

/-- Ledgers reachable from `mem_init c` by any sequence of `mem_alloc`,
`mem_free` and `mem_resize` calls. -/
inductive Reachable (c : Nat) : Ledger → Prop where
  | init : Reachable c (mem_init c)
  | alloc (n : Nat) (ok : Bool) {l : Ledger} :
      Reachable c l → Reachable c (mem_alloc n ok l).1
  | free (p : Option Nat) {l : Ledger} :
      Reachable c l → Reachable c (mem_free p l)
  | resize (p : Option Nat) (n : Nat) (ok : Bool) {l : Ledger} :
      Reachable c l → Reachable c (mem_resize p n ok l).ledger

/-- Ledgers reachable from `mem_init c` by `mem_alloc` and `mem_free` calls
only (no `mem_resize`). -/
inductive ReachableAF (c : Nat) : Ledger → Prop where
  | init : ReachableAF c (mem_init c)
  | alloc (n : Nat) (ok : Bool) {l : Ledger} :
      ReachableAF c l → ReachableAF c (mem_alloc n ok l).1
  | free (p : Option Nat) {l : Ledger} :
      ReachableAF c l → ReachableAF c (mem_free p l)

/-! ## Spec-side descriptions for the refinement claims -/

/-- A descriptor satisfying a request of size `n`: free and of length ≥ `n`. -/
def allocCand (n : Nat) (b : MemBlock) : Bool := b.is_free && decide (n ≤ b.size)

/-- A descriptor whose offset is not `a`. -/
def misses (a : Nat) (b : MemBlock) : Bool := !(b.offset == a)

/-- From the words of the spec (first-fit allocate): the first descriptor
that is free and of length ≥ `n` is selected; on exact fit it is marked used;
on larger fit it is shrunk to exactly `n`, marked used, and a new free
descriptor covering the remainder is inserted immediately after; otherwise
(or when the bookkeeping allocation fails) the result is null and the chain
is unchanged. -/
def alloc_spec (n : Nat) (ok : Bool) (l : Ledger) : Ledger × Option Nat :=
  let pre := l.takeWhile fun b => !allocCand n b
  match l.dropWhile fun b => !allocCand n b with
  | [] => (l, none)
  | b :: post =>
    if b.size = n then (pre ++ ⟨b.offset, n, false⟩ :: post, some b.offset)
    else if ok then
      (pre ++ ⟨b.offset, n, false⟩ :: ⟨b.offset + n, b.size - n, true⟩ :: post,
        some b.offset)
    else (l, none)

/-- From the words of the spec (release, next-merge): mark the block free and
absorb the next descriptor when it is free. -/
def absorbNext (m : MemBlock) (post : Ledger) : MemBlock × Ledger :=
  match post with
  | nx :: post' =>
    if nx.is_free then (⟨m.offset, m.size + nx.size, true⟩, post')
    else (⟨m.offset, m.size, true⟩, nx :: post')
  | [] => (⟨m.offset, m.size, true⟩, [])

/-- From the words of the spec (release, prev-merge): absorb the freed block
into the previous descriptor when that one is free. -/
def absorbPrev (pre : Ledger) (m : MemBlock) (post : Ledger) : Ledger :=
  match pre.getLast? with
  | some pv =>
    if pv.is_free then pre.dropLast ++ ⟨pv.offset, pv.size + m.size, true⟩ :: post
    else pre ++ m :: post
  | none => m :: post

/-- From the words of the spec (release): no-op when no descriptor's offset
matches or the matching descriptor is already free; otherwise mark it free,
merge with the next descriptor if free, then merge into the previous
descriptor if free. -/
def free_spec (a : Nat) (l : Ledger) : Ledger :=
  match l.dropWhile (misses a) with
  | [] => l
  | m :: post =>
    if m.is_free then l
    else
      absorbPrev (l.takeWhile (misses a))
        (absorbNext m post).1 (absorbNext m post).2

/-! ## Helper lemmas -/

theorem allocZero_eq_find (l : Ledger) :
    allocZero l = (l.find? fun b => b.is_free).map fun b => b.offset := by
  induction l with
  | nil => rfl
  | cons curr rest ih =>
    by_cases h : curr.is_free = true
    · simp [allocZero, h]
    · simp only [Bool.not_eq_true] at h
      simp [allocZero, h, ih]

/-! ## Claim theorems -/

/-- C6: `mem_resize` with a null pointer behaves identically to `mem_alloc`
(same returned address and same chain), and `mem_resize` with size 0 on any
non-null address behaves identically to `mem_free` on that address followed
by returning null. -/
theorem resize_null_is_alloc_and_zero_is_free :
    ∀ (n : Nat) (ok : Bool) (l : Ledger) (x : Nat),
      (mem_resize none n ok l).ledger = (mem_alloc n ok l).1 ∧
      (mem_resize none n ok l).ret = (mem_alloc n ok l).2 ∧
      mem_resize (some x) 0 ok l = ⟨mem_free (some x) l, none, false⟩ := by
  intro n ok l x
  refine ⟨rfl, rfl, ?_⟩
  simp [mem_resize]

/-- C7: `mem_alloc 0` returns the offset of the first free descriptor in
chain order and leaves the whole chain unchanged, so repeated zero-size
calls return the same address. -/
theorem alloc_zero_frame :
    ∀ (ok : Bool) (l : Ledger),
      mem_alloc 0 ok l = (l, (l.find? fun b => b.is_free).map fun b => b.offset) := by
  intro ok l
  simp [mem_alloc, allocZero_eq_find]

/-- C10: when no descriptor of the chain is free, `mem_alloc 0` returns
null. -/
theorem alloc_zero_none_when_no_free (ok : Bool) (l : Ledger)
    (h : ∀ b ∈ l, b.is_free = false) : (mem_alloc 0 ok l).2 = none := by
  have hf : (l.find? fun b => b.is_free) = none := by
    rw [List.find?_eq_none]
    intro b hb
    simp [h b hb]
  simp [mem_alloc, allocZero_eq_find, hf]

/-- Witness for C10: a fully allocated one-block arena. -/
theorem alloc_zero_none_when_no_free_witness :
    (∀ b ∈ [(⟨0, 5, false⟩ : MemBlock)], b.is_free = false) ∧
      (mem_alloc 0 true [(⟨0, 5, false⟩ : MemBlock)]).2 = none :=
  ⟨by decide, alloc_zero_none_when_no_free true [⟨0, 5, false⟩] (by decide)⟩

/-- C3: for every nonzero size `n`, `mem_alloc` behaves exactly as the
spec's first-fit description `alloc_spec`: the first free descriptor of
length ≥ `n` is marked used (shrunk to `n` with the free remainder inserted
after it when strictly larger) and its address returned; with no such
descriptor, or with the bookkeeping allocation failing, the result is null
and the chain unchanged. -/
theorem alloc_refines_spec (n : Nat) (ok : Bool) (l : Ledger) (hn : 0 < n) :
    mem_alloc n ok l = alloc_spec n ok l := by
  have hne : n ≠ 0 := Nat.pos_iff_ne_zero.mp hn
  simp only [mem_alloc, if_neg hne]
  induction l with
  | nil => rfl
  | cons curr rest ih =>
    by_cases hskip : curr.is_free = false ∨ curr.size < n
    · have hp : (!allocCand n curr) = true := by
        rcases hskip with h1 | h1
        · simp [allocCand, h1]
        · have h2 : ¬ n ≤ curr.size := by omega
          simp [allocCand, h2]
      simp only [allocLoop, if_pos hskip, ih]
      simp only [alloc_spec, List.dropWhile_cons, List.takeWhile_cons, hp, if_true]
      rcases hd : rest.dropWhile (fun b => !allocCand n b) with _ | ⟨b, post⟩ <;>
        simp only [hd]
      by_cases hbs : b.size = n
      · simp [hbs]
      · by_cases hok : ok = true
        · simp [hbs, hok]
        · simp only [Bool.not_eq_true] at hok
          simp [hbs, hok]
    · push_neg at hskip
      obtain ⟨hfree, hle⟩ := hskip
      simp only [Bool.not_eq_false] at hfree
      have hp : (!allocCand n curr) = false := by
        simp [allocCand, hfree, hle]
      have hsz : ¬ curr.size < n := by omega
      simp only [alloc_spec, List.dropWhile_cons, List.takeWhile_cons, hp]
      by_cases hlt : n < curr.size
      · have hbs : curr.size ≠ n := by omega
        by_cases hok : ok = true
        · simp [allocLoop, hfree, hsz, hlt, hok, hbs]
        · simp only [Bool.not_eq_true] at hok
          simp [allocLoop, hfree, hsz, hlt, hok, hbs]
      · have heq : curr.size = n := by omega
        simp [allocLoop, hfree, hsz, hlt, heq]

/-- Witness for C3: allocating 30 bytes from a fresh 100-byte pool splits
the initial free block, as `alloc_spec` describes. -/
theorem alloc_refines_spec_witness :
    (0 : Nat) < 30 ∧ mem_alloc 30 true (mem_init 100) = alloc_spec 30 true (mem_init 100) :=
  ⟨by decide, alloc_refines_spec 30 true (mem_init 100) (by decide)⟩

theorem mergeNextF_eq_absorbNext (b : MemBlock) (rest : Ledger) :
    mergeNextF b rest = (absorbNext b rest).1 :: (absorbNext b rest).2 := by
  cases rest with
  | nil => rfl
  | cons nx rest' =>
    by_cases h : nx.is_free = true <;> simp [mergeNextF, absorbNext, h]

theorem absorbPrev_cons_cons (p q : MemBlock) (t : Ledger) (m : MemBlock) (post : Ledger) :
    absorbPrev (p :: q :: t) m post = p :: absorbPrev (q :: t) m post := by
  simp only [absorbPrev, List.getLast?_cons_cons]
  cases hg : (q :: t).getLast? with
  | none => simp [List.getLast?_eq_none_iff] at hg
  | some pv =>
    by_cases h : pv.is_free = true <;> simp [h, List.dropLast_cons₂]

/-- The `mem_free` scan with a predecessor at hand agrees with the spec's
find/absorb-next/absorb-prev description. -/
theorem freeGo_eq (a : Nat) (p : MemBlock) (l : Ledger) :
    freeGo a (p :: l) =
      match l.dropWhile (misses a) with
      | [] => p :: l
      | m :: post =>
        if m.is_free then p :: l
        else absorbPrev (p :: l.takeWhile (misses a))
          (absorbNext m post).1 (absorbNext m post).2 := by
  induction l generalizing p with
  | nil => rfl
  | cons c rest ih =>
    by_cases hc : c.offset = a
    · have hm : misses a c = false := by simp [misses, hc]
      simp only [freeGo, if_pos hc, List.dropWhile_cons, List.takeWhile_cons, hm]
      by_cases hf : c.is_free = true
      · simp [hf]
      · simp only [Bool.not_eq_true] at hf
        simp only [hf, Bool.false_eq_true, if_false, cond_false]
        rw [mergeNextF_eq_absorbNext]
        by_cases hp : p.is_free = true <;> simp [absorbPrev, hp]
    · have hm : misses a c = true := by simp [misses, hc]
      simp only [freeGo, if_neg hc, ih c, List.dropWhile_cons, List.takeWhile_cons, hm, if_true]
      rcases hd : rest.dropWhile (misses a) with _ | ⟨m, post⟩
      · simp [hd]
      · simp only [hd]
        by_cases hf : m.is_free = true
        · simp [hf]
        · simp only [Bool.not_eq_true] at hf
          simp only [hf, Bool.false_eq_true, if_false]
          exact (absorbPrev_cons_cons p c _ _ _).symm

/-- C4: `mem_free` is a no-op on a null pointer, on an address matching no
descriptor, and on a descriptor that is already free; otherwise it marks the
first matching descriptor free, absorbs the next descriptor when free, then
absorbs the result into the previous descriptor when that one is free —
exactly the spec's description `free_spec`. -/
theorem free_refines_spec : ∀ (a : Nat) (l : Ledger),
    mem_free none l = l ∧ mem_free (some a) l = free_spec a l := by
  intro a l
  refine ⟨rfl, ?_⟩
  cases l with
  | nil => rfl
  | cons curr rest =>
    by_cases hc : curr.offset = a
    · have hm : misses a curr = false := by simp [misses, hc]
      simp only [mem_free, if_pos hc, free_spec, List.dropWhile_cons, List.takeWhile_cons, hm]
      by_cases hf : curr.is_free = true
      · simp [hf]
      · simp only [Bool.not_eq_true] at hf
        simp [hf, mergeNextF_eq_absorbNext, absorbPrev]
    · have hm : misses a curr = true := by simp [misses, hc]
      simp only [mem_free, if_neg hc]
      rw [freeGo_eq]
      simp only [free_spec, List.dropWhile_cons, List.takeWhile_cons, hm, if_true]

/-- A prefix of blocks whose offsets all miss `a` passes through the
`mem_resize` search loop untouched. -/
theorem resizeLoop_append (a n : Nat) (ok : Bool) (pre l : Ledger)
    (hpre : ∀ b ∈ pre, b.offset ≠ a) :
    resizeLoop a n ok (pre ++ l) =
      match resizeLoop a n ok l with
      | .inplace l1 r => .inplace (pre ++ l1) r
      | s => s := by
  induction pre with
  | nil =>
    simp only [List.nil_append]
    cases hr : resizeLoop a n ok l <;> simp
  | cons c t ih =>
    have hc : c.offset ≠ a := hpre c (by simp)
    have ht : ∀ b ∈ t, b.offset ≠ a := fun b hb => hpre b (by simp [hb])
    simp only [List.cons_append, resizeLoop, if_neg hc, List.append_eq, ih ht]
    cases hr : resizeLoop a n ok l <;> simp

theorem allocLoop_none_frame (n : Nat) (ok : Bool) (l : Ledger)
    (h : (allocLoop n ok l).2 = none) : (allocLoop n ok l).1 = l := by
  induction l with
  | nil => rfl
  | cons curr rest ih =>
    by_cases hskip : curr.is_free = false ∨ curr.size < n
    · simp only [allocLoop, if_pos hskip] at h ⊢
      simp [ih h]
    · simp only [allocLoop, if_neg hskip] at h ⊢
      by_cases hlt : n < curr.size
      · simp only [if_pos hlt] at h ⊢
        by_cases hok : ok = true
        · simp [hok] at h
        · simp only [Bool.not_eq_true] at hok
          simp [hok]
      · simp only [if_neg hlt] at h
        simp at h

/-- A failed `mem_alloc` (null result) leaves the chain unchanged. -/
theorem mem_alloc_none_frame (n : Nat) (ok : Bool) (l : Ledger)
    (h : (mem_alloc n ok l).2 = none) : (mem_alloc n ok l).1 = l := by
  by_cases hn : n = 0
  · simp [mem_alloc, hn]
  · simp only [mem_alloc, if_neg hn] at h ⊢
    exact allocLoop_none_frame n ok l h

/-- C5: on a used descriptor at address `a` and a nonzero new size `n` (with
the bookkeeping allocation succeeding), `mem_resize` shrinks in place when
the current length is ≥ `n`, splitting off a free leftover descriptor when
one remains, and returns `a`; otherwise, when the next descriptor is free
and the two lengths together reach `n`, it merges the two and splits off a
free trailing remainder when the merged length exceeds `n`, again returning
`a`. -/
theorem resize_in_place_spec (a n : Nat) (pre post : Ledger) (m : MemBlock)
    (hpre : ∀ b ∈ pre, b.offset ≠ a) (hoff : m.offset = a) (hused : m.is_free = false)
    (hn : 0 < n) :
    (n ≤ m.size →
      mem_resize (some a) n true (pre ++ m :: post) =
        if n < m.size then
          ⟨pre ++ ⟨a, n, false⟩ :: ⟨a + n, m.size - n, true⟩ :: post, some a, false⟩
        else ⟨pre ++ m :: post, some a, false⟩) ∧
    (∀ nx post', post = nx :: post' → m.size < n → nx.is_free = true →
      n ≤ m.size + nx.size →
      mem_resize (some a) n true (pre ++ m :: post) =
        if n < m.size + nx.size then
          ⟨pre ++ ⟨a, n, false⟩ :: ⟨a + n, m.size + nx.size - n, true⟩ :: post', some a, false⟩
        else ⟨pre ++ ⟨a, n, false⟩ :: post', some a, false⟩) := by
  subst hoff
  have hne : n ≠ 0 := Nat.pos_iff_ne_zero.mp hn
  constructor
  · intro hle
    simp only [mem_resize, if_neg hne, resizeLoop_append _ _ _ _ _ hpre]
    simp only [resizeLoop, if_pos rfl, if_pos hle]
    by_cases hlt : n < m.size
    · simp [hlt, hused]
    · have heq : m.size = n := by omega
      simp [hlt]
  · intro nx post' hpost hgt hfree hle2
    subst hpost
    simp only [mem_resize, if_neg hne, resizeLoop_append _ _ _ _ _ hpre]
    have hnle : ¬ n ≤ m.size := by omega
    simp only [resizeLoop, if_pos rfl, if_neg hnle, if_pos (And.intro hfree hle2)]
    by_cases hlt : n < m.size + nx.size
    · simp [hlt, hused]
    · have heq : m.size + nx.size = n := by omega
      simp [hlt, hused, heq]

/-- Witness for C5: shrinking a used 10-byte block to 4 bytes splits off a
6-byte free leftover and returns the same address. -/
theorem resize_in_place_spec_witness :
    mem_resize (some 0) 4 true [(⟨0, 10, false⟩ : MemBlock)] =
      ⟨[⟨0, 4, false⟩, ⟨4, 6, true⟩], some 0, false⟩ := by
  have h := (resize_in_place_spec 0 4 [] [] ⟨0, 10, false⟩ (by simp) rfl rfl
    (by decide)).1 (by decide)
  simpa using h

/-- C9: when `mem_resize` on a used descriptor with a nonzero size returns
null, the block at that address is still in the chain and still marked used
(not freed), and no bytes were copied. -/
theorem resize_none_keeps_block (a n : Nat) (ok : Bool) (pre post : Ledger) (m : MemBlock)
    (hpre : ∀ b ∈ pre, b.offset ≠ a) (hoff : m.offset = a) (hused : m.is_free = false)
    (hn : 0 < n)
    (hret : (mem_resize (some a) n ok (pre ++ m :: post)).ret = none) :
    (∃ b ∈ (mem_resize (some a) n ok (pre ++ m :: post)).ledger,
        b.offset = a ∧ b.is_free = false) ∧
      (mem_resize (some a) n ok (pre ++ m :: post)).copied = false := by
  subst hoff
  have hne : n ≠ 0 := by omega
  simp only [mem_resize, if_neg hne, resizeLoop_append _ _ _ _ _ hpre] at hret ⊢
  by_cases h1 : n ≤ m.size
  · by_cases h2 : n < m.size
    · by_cases hok : ok = true
      · simp only [resizeLoop, if_pos rfl, if_pos h1, if_pos h2, hok, if_true] at hret
        simp at hret
      · simp only [Bool.not_eq_true] at hok
        simp only [resizeLoop, if_pos rfl, if_pos h1, if_pos h2, hok, Bool.false_eq_true,
          if_false] at hret ⊢
        exact ⟨⟨m, by simp, rfl, hused⟩, rfl⟩
    · simp only [resizeLoop, if_pos rfl, if_pos h1, if_neg h2] at hret
      simp at hret
  · cases post with
    | nil =>
      simp only [resizeLoop, if_pos rfl, if_neg h1] at hret ⊢
      cases halloc : (mem_alloc n ok (pre ++ [m])).2 with
      | none =>
        simp only [halloc] at hret ⊢
        have hfr := mem_alloc_none_frame n ok (pre ++ [m]) halloc
        simp only [hfr]
        exact ⟨⟨m, by simp, rfl, hused⟩, rfl⟩
      | some newOff =>
        simp only [halloc] at hret
        simp at hret
    | cons nx post' =>
      by_cases h3 : nx.is_free = true ∧ n ≤ m.size + nx.size
      · by_cases h4 : n < m.size + nx.size
        · by_cases hok : ok = true
          · simp only [resizeLoop, if_pos rfl, if_neg h1, if_pos h3, if_pos h4, hok,
              if_true] at hret
            simp at hret
          · simp only [Bool.not_eq_true] at hok
            simp only [resizeLoop, if_pos rfl, if_neg h1, if_pos h3, if_pos h4, hok,
              Bool.false_eq_true, if_false] at hret ⊢
            exact ⟨⟨⟨m.offset, m.size + nx.size, m.is_free⟩, by simp, rfl, hused⟩, rfl⟩
        · simp only [resizeLoop, if_pos rfl, if_neg h1, if_pos h3, if_neg h4] at hret
          simp at hret
      · simp only [resizeLoop, if_pos rfl, if_neg h1, if_neg h3] at hret ⊢
        cases halloc : (mem_alloc n ok (pre ++ m :: nx :: post')).2 with
        | none =>
          simp only [halloc] at hret ⊢
          have hfr := mem_alloc_none_frame n ok (pre ++ m :: nx :: post') halloc
          simp only [hfr]
          exact ⟨⟨m, by simp, rfl, hused⟩, rfl⟩
        | some newOff =>
          simp only [halloc] at hret
          simp at hret

/-- Witness for C9: growing a used 10-byte block to 20 in a full one-block
arena fails (no free space for relocation) and leaves the block present and
used, with nothing copied. -/
theorem resize_none_keeps_block_witness :
    (∃ b ∈ (mem_resize (some 0) 20 true [(⟨0, 10, false⟩ : MemBlock)]).ledger,
        b.offset = 0 ∧ b.is_free = false) ∧
      (mem_resize (some 0) 20 true [(⟨0, 10, false⟩ : MemBlock)]).copied = false :=
  resize_none_keeps_block 0 20 true [] [] ⟨0, 10, false⟩ (by simp) rfl rfl
    (by decide) (by decide)

theorem covers_cons (s c : Nat) (b : MemBlock) (rest : Ledger) :
    coversTo s c (b :: rest) = true ↔
      b.offset = s ∧ 0 < b.size ∧ coversTo (s + b.size) c rest = true := by
  simp only [coversTo, Bool.and_eq_true, beq_iff_eq, decide_eq_true_eq]
  constructor
  · rintro ⟨⟨h1, h2⟩, h3⟩
    subst h1
    exact ⟨rfl, h2, h3⟩
  · rintro ⟨h1, h2, h3⟩
    subst h1
    exact ⟨⟨rfl, h2⟩, h3⟩

theorem covers_nil (s c : Nat) : coversTo s c [] = true ↔ s = c := by
  simp [coversTo]

theorem coversTo_allocLoop (n : Nat) (ok : Bool) (l : Ledger) (hn : 0 < n) :
    ∀ s c : Nat, coversTo s c l = true → coversTo s c (allocLoop n ok l).1 = true := by
  induction l with
  | nil => intro s c h; exact h
  | cons curr rest ih =>
    intro s c h
    rw [covers_cons] at h
    obtain ⟨hoff, hsz, hrest⟩ := h
    by_cases hskip : curr.is_free = false ∨ curr.size < n
    · simp only [allocLoop, if_pos hskip]
      rw [covers_cons]
      exact ⟨hoff, hsz, ih _ _ hrest⟩
    · simp only [allocLoop, if_neg hskip]
      by_cases hlt : n < curr.size
      · simp only [if_pos hlt]
        by_cases hok : ok = true
        · simp only [hok, if_true]
          simp only [covers_cons]
          refine ⟨hoff, hn, by omega, by omega, ?_⟩
          have he : s + n + (curr.size - n) = s + curr.size := by omega
          rw [he]
          exact hrest
        · simp only [Bool.not_eq_true] at hok
          simp only [hok, Bool.false_eq_true, if_false]
          rw [covers_cons]
          exact ⟨hoff, hsz, hrest⟩
      · simp only [if_neg hlt]
        simp only [covers_cons]
        exact ⟨hoff, hsz, hrest⟩

theorem coversTo_mem_alloc (n : Nat) (ok : Bool) (l : Ledger) (s c : Nat)
    (h : coversTo s c l = true) : coversTo s c (mem_alloc n ok l).1 = true := by
  by_cases hn : n = 0
  · simpa [mem_alloc, hn] using h
  · simp only [mem_alloc, if_neg hn]
    exact coversTo_allocLoop n ok l (by omega) s c h

theorem coversTo_freeGo (a : Nat) (l : Ledger) :
    ∀ s c : Nat, coversTo s c l = true → coversTo s c (freeGo a l) = true := by
  induction l with
  | nil => intro s c h; exact h
  | cons p t ih =>
    intro s c h
    cases t with
    | nil => exact h
    | cons curr rest =>
      rw [covers_cons] at h
      obtain ⟨hpoff, hpsz, h⟩ := h
      rw [covers_cons] at h
      obtain ⟨hcoff, hcsz, hrest⟩ := h
      by_cases hc : curr.offset = a
      · simp only [freeGo, if_pos hc]
        by_cases hf : curr.is_free = true
        · simp only [hf, if_true]
          simp only [covers_cons]
          exact ⟨hpoff, hpsz, hcoff, hcsz, hrest⟩
        · simp only [Bool.not_eq_true] at hf
          simp only [hf, Bool.false_eq_true, if_false]
          cases rest with
          | nil =>
            rw [covers_nil] at hrest
            simp only [mergeNextF]
            by_cases hp : p.is_free = true
            · simp only [hp, if_true]
              simp only [covers_cons, covers_nil]
              refine ⟨hpoff, by omega, by omega⟩
            · simp only [Bool.not_eq_true] at hp
              simp only [hp, Bool.false_eq_true, if_false]
              simp only [covers_cons, covers_nil]
              exact ⟨hpoff, hpsz, by omega, by omega, by omega⟩
          | cons nx rest' =>
            rw [covers_cons] at hrest
            obtain ⟨hnoff, hnsz, hrest'⟩ := hrest
            by_cases hnf : nx.is_free = true
            · simp only [mergeNextF, hnf, if_true]
              by_cases hp : p.is_free = true
              · simp only [hp, if_true]
                simp only [covers_cons]
                refine ⟨hpoff, by omega, ?_⟩
                have he : s + (p.size + (curr.size + nx.size)) =
                    s + p.size + curr.size + nx.size := by omega
                rw [he]
                exact hrest'
              · simp only [Bool.not_eq_true] at hp
                simp only [hp, Bool.false_eq_true, if_false]
                simp only [covers_cons]
                refine ⟨hpoff, hpsz, by omega, by omega, ?_⟩
                have he : s + p.size + (curr.size + nx.size) =
                    s + p.size + curr.size + nx.size := by omega
                rw [he]
                exact hrest'
            · simp only [Bool.not_eq_true] at hnf
              simp only [mergeNextF, hnf, Bool.false_eq_true, if_false]
              by_cases hp : p.is_free = true
              · simp only [hp, if_true]
                simp only [covers_cons]
                refine ⟨hpoff, by omega, by omega, hnsz, ?_⟩
                have he : s + (p.size + curr.size) + nx.size =
                    s + p.size + curr.size + nx.size := by omega
                rw [he]
                exact hrest'
              · simp only [Bool.not_eq_true] at hp
                simp only [hp, Bool.false_eq_true, if_false]
                simp only [covers_cons]
                exact ⟨hpoff, hpsz, by omega, by omega, by omega, hnsz, hrest'⟩
      · simp only [freeGo, if_neg hc]
        simp only [covers_cons]
        refine ⟨hpoff, hpsz, ih _ _ ?_⟩
        rw [covers_cons]
        exact ⟨hcoff, hcsz, hrest⟩

theorem coversTo_mem_free (p : Option Nat) (l : Ledger) (s c : Nat)
    (h : coversTo s c l = true) : coversTo s c (mem_free p l) = true := by
  cases p with
  | none => exact h
  | some a =>
    cases l with
    | nil => exact h
    | cons curr rest =>
      rw [covers_cons] at h
      obtain ⟨hcoff, hcsz, hrest⟩ := h
      by_cases hc : curr.offset = a
      · simp only [mem_free, if_pos hc]
        by_cases hf : curr.is_free = true
        · simp only [hf, if_true]
          simp only [covers_cons]
          exact ⟨hcoff, hcsz, hrest⟩
        · simp only [Bool.not_eq_true] at hf
          simp only [hf, Bool.false_eq_true, if_false]
          cases rest with
          | nil =>
            rw [covers_nil] at hrest
            simp only [mergeNextF, covers_cons, covers_nil]
            exact ⟨hcoff, hcsz, by omega⟩
          | cons nx rest' =>
            rw [covers_cons] at hrest
            obtain ⟨hnoff, hnsz, hrest'⟩ := hrest
            by_cases hnf : nx.is_free = true
            · simp only [mergeNextF, hnf, if_true]
              simp only [covers_cons]
              refine ⟨hcoff, by omega, ?_⟩
              have he : s + (curr.size + nx.size) = s + curr.size + nx.size := by omega
              rw [he]
              exact hrest'
            · simp only [Bool.not_eq_true] at hnf
              simp only [mergeNextF, hnf, Bool.false_eq_true, if_false]
              simp only [covers_cons]
              exact ⟨hcoff, hcsz, by omega, hnsz, hrest'⟩
      · simp only [mem_free, if_neg hc]
        exact coversTo_freeGo a (curr :: rest) s c (by
          rw [covers_cons]; exact ⟨hcoff, hcsz, hrest⟩)

theorem coversTo_resizeLoop (a n : Nat) (ok : Bool) (l : Ledger) (hn : 0 < n) :
    ∀ s c : Nat, coversTo s c l = true →
      ∀ l1 r, resizeLoop a n ok l = .inplace l1 r → coversTo s c l1 = true := by
  induction l with
  | nil => intro s c h l1 r hr; simp [resizeLoop] at hr
  | cons curr rest ih =>
    intro s c h l1 r hr
    rw [covers_cons] at h
    obtain ⟨hcoff, hcsz, hrest⟩ := h
    by_cases hc : curr.offset = a
    · simp only [resizeLoop, if_pos hc] at hr
      by_cases h1 : n ≤ curr.size
      · simp only [if_pos h1] at hr
        by_cases h2 : n < curr.size
        · simp only [if_pos h2] at hr
          by_cases hok : ok = true
          · simp only [hok, if_true, RStep.inplace.injEq] at hr
            obtain ⟨hl, _⟩ := hr
            subst hl
            simp only [covers_cons]
            refine ⟨hcoff, hn, by omega, by omega, ?_⟩
            have he : s + n + (curr.size - n) = s + curr.size := by omega
            rw [he]
            exact hrest
          · simp only [Bool.not_eq_true] at hok
            simp only [hok, Bool.false_eq_true, if_false, RStep.inplace.injEq] at hr
            obtain ⟨hl, _⟩ := hr
            subst hl
            simp only [covers_cons]
            exact ⟨hcoff, hcsz, hrest⟩
        · simp only [if_neg h2, RStep.inplace.injEq] at hr
          obtain ⟨hl, _⟩ := hr
          subst hl
          simp only [covers_cons]
          exact ⟨hcoff, hcsz, hrest⟩
      · simp only [if_neg h1] at hr
        cases rest with
        | nil => simp at hr
        | cons nx rest' =>
          rw [covers_cons] at hrest
          obtain ⟨hnoff, hnsz, hrest'⟩ := hrest
          by_cases h3 : nx.is_free = true ∧ n ≤ curr.size + nx.size
          · simp only [if_pos h3] at hr
            by_cases h4 : n < curr.size + nx.size
            · simp only [if_pos h4] at hr
              by_cases hok : ok = true
              · simp only [hok, if_true, RStep.inplace.injEq] at hr
                obtain ⟨hl, _⟩ := hr
                subst hl
                simp only [covers_cons]
                refine ⟨hcoff, hn, by omega, by omega, ?_⟩
                have he : s + n + (curr.size + nx.size - n) = s + curr.size + nx.size := by
                  omega
                rw [he]
                exact hrest'
              · simp only [Bool.not_eq_true] at hok
                simp only [hok, Bool.false_eq_true, if_false, RStep.inplace.injEq] at hr
                obtain ⟨hl, _⟩ := hr
                subst hl
                simp only [covers_cons]
                refine ⟨hcoff, by omega, ?_⟩
                have he : s + (curr.size + nx.size) = s + curr.size + nx.size := by omega
                rw [he]
                exact hrest'
            · simp only [if_neg h4, RStep.inplace.injEq] at hr
              obtain ⟨hl, _⟩ := hr
              subst hl
              simp only [covers_cons]
              refine ⟨hcoff, by omega, ?_⟩
              have he : s + (curr.size + nx.size) = s + curr.size + nx.size := by omega
              rw [he]
              exact hrest'
          · simp only [if_neg h3] at hr
            simp at hr
    · simp only [resizeLoop, if_neg hc] at hr
      cases hrr : resizeLoop a n ok rest with
      | inplace l2 r2 =>
        rw [hrr] at hr
        simp only [RStep.inplace.injEq] at hr
        obtain ⟨hl, _⟩ := hr
        subst hl
        simp only [covers_cons]
        exact ⟨hcoff, hcsz, ih _ _ hrest l2 r2 hrr⟩
      | relocate o =>
        rw [hrr] at hr
        simp at hr
      | notFound =>
        rw [hrr] at hr
        simp at hr

theorem coversTo_mem_resize (p : Option Nat) (n : Nat) (ok : Bool) (l : Ledger) (s c : Nat)
    (h : coversTo s c l = true) : coversTo s c (mem_resize p n ok l).ledger = true := by
  cases p with
  | none => exact coversTo_mem_alloc n ok l s c h
  | some a =>
    by_cases hn : n = 0
    · simp only [mem_resize, hn, if_pos rfl]
      exact coversTo_mem_free (some a) l s c h
    · simp only [mem_resize, if_neg hn]
      cases hrr : resizeLoop a n ok l with
      | inplace l2 r2 =>
        exact coversTo_resizeLoop a n ok l (by omega) s c h l2 r2 hrr
      | relocate o =>
        cases halloc : (mem_alloc n ok l).2 with
        | none =>
          simp only [halloc]
          exact coversTo_mem_alloc n ok l s c h
        | some newOff =>
          simp only [halloc]
          exact coversTo_mem_free (some a) _ s c (coversTo_mem_alloc n ok l s c h)
      | notFound => exact h

/-- C1: after `mem_init c` (capacity `c > 0`, per the interface contract)
and any sequence of `mem_alloc`, `mem_free` and `mem_resize` calls, the
chain read in order exactly partitions `[0, c)`: the first descriptor has
offset 0, each descriptor starts where the previous one ends, every length
is positive, and the last descriptor ends at `c`. -/
theorem ledger_partitions (c : Nat) (hc : 0 < c) (l : Ledger) (h : Reachable c l) :
    coversTo 0 c l = true := by
  induction h with
  | init => simp [mem_init, coversTo, hc]
  | alloc n ok hr ih => exact coversTo_mem_alloc _ _ _ _ _ ih
  | free p hr ih => exact coversTo_mem_free _ _ _ _ ih
  | resize p n ok hr ih => exact coversTo_mem_resize _ _ _ _ _ _ ih

/-- Witness for C1: the initial ledger of a 100-byte pool partitions
`[0, 100)`. -/
theorem ledger_partitions_witness :
    (0 : Nat) < 100 ∧ coversTo 0 100 (mem_init 100) = true :=
  ⟨by decide, ledger_partitions 100 (by decide) (mem_init 100) Reachable.init⟩

theorem noAdj_cons_cons (b1 b2 : MemBlock) (t : Ledger) :
    noAdjFree (b1 :: b2 :: t) = true ↔
      (b1.is_free = false ∨ b2.is_free = false) ∧ noAdjFree (b2 :: t) = true := by
  cases hb1 : b1.is_free <;> cases hb2 : b2.is_free <;>
    simp [noAdjFree, hb1, hb2]

theorem noAdj_tail (b : MemBlock) (t : Ledger) (h : noAdjFree (b :: t) = true) :
    noAdjFree t = true := by
  cases t with
  | nil => rfl
  | cons b2 t2 => exact ((noAdj_cons_cons b b2 t2).mp h).2

theorem allocLoop_cons_head (n : Nat) (ok : Bool) (curr : MemBlock) (rest : Ledger) :
    ∃ d t, (allocLoop n ok (curr :: rest)).1 = d :: t ∧
      (d.is_free = true → curr.is_free = true) := by
  by_cases hskip : curr.is_free = false ∨ curr.size < n
  · simp only [allocLoop, if_pos hskip]
    exact ⟨curr, _, rfl, fun h => h⟩
  · simp only [allocLoop, if_neg hskip]
    by_cases hlt : n < curr.size
    · by_cases hok : ok = true
      · simp only [if_pos hlt, hok, if_true]
        refine ⟨_, _, rfl, ?_⟩
        intro h
        simp at h
      · simp only [Bool.not_eq_true] at hok
        simp only [if_pos hlt, hok, Bool.false_eq_true, if_false]
        exact ⟨curr, rest, rfl, fun h => h⟩
    · simp only [if_neg hlt]
      refine ⟨_, _, rfl, ?_⟩
      intro h
      simp at h

theorem noAdjFree_allocLoop (n : Nat) (ok : Bool) (l : Ledger)
    (h : noAdjFree l = true) : noAdjFree (allocLoop n ok l).1 = true := by
  induction l with
  | nil => exact h
  | cons curr rest ih =>
    have hrest : noAdjFree rest = true := noAdj_tail _ _ h
    by_cases hskip : curr.is_free = false ∨ curr.size < n
    · simp only [allocLoop, if_pos hskip]
      cases rest with
      | nil => rfl
      | cons r0 rt =>
        obtain ⟨d, t, heq, hdf⟩ := allocLoop_cons_head n ok r0 rt
        rw [heq]
        rw [noAdj_cons_cons]
        constructor
        · by_cases hcf : curr.is_free = true
          · right
            by_cases hd : d.is_free = true
            · exfalso
              have hr0 := hdf hd
              rcases ((noAdj_cons_cons curr r0 rt).mp h).1 with h' | h'
              · rw [h'] at hcf; simp at hcf
              · rw [h'] at hr0; simp at hr0
            · simpa using hd
          · left; simpa using hcf
        · rw [← heq]; exact ih hrest
    · push_neg at hskip
      obtain ⟨hfree, hle⟩ := hskip
      simp only [Bool.not_eq_false] at hfree
      have hsz : ¬ curr.size < n := by omega
      simp only [allocLoop, if_neg (by push_neg; exact ⟨by simp [hfree], hle⟩ :
        ¬ (curr.is_free = false ∨ curr.size < n))]
      by_cases hlt : n < curr.size
      · by_cases hok : ok = true
        · simp only [if_pos hlt, hok, if_true]
          rw [noAdj_cons_cons]
          refine ⟨Or.inl rfl, ?_⟩
          cases rest with
          | nil => rfl
          | cons r0 rt =>
            rw [noAdj_cons_cons]
            refine ⟨Or.inr ?_, hrest⟩
            rcases ((noAdj_cons_cons curr r0 rt).mp h).1 with h' | h'
            · rw [h'] at hfree; simp at hfree
            · exact h'
        · simp only [Bool.not_eq_true] at hok
          simp only [if_pos hlt, hok, Bool.false_eq_true, if_false]
          exact h
      · simp only [if_neg hlt]
        cases rest with
        | nil => rfl
        | cons r0 rt =>
          rw [noAdj_cons_cons]
          exact ⟨Or.inl rfl, hrest⟩

theorem noAdjFree_mem_alloc (n : Nat) (ok : Bool) (l : Ledger)
    (h : noAdjFree l = true) : noAdjFree (mem_alloc n ok l).1 = true := by
  by_cases hn : n = 0
  · simpa [mem_alloc, hn] using h
  · simp only [mem_alloc, if_neg hn]
    exact noAdjFree_allocLoop n ok l h

theorem freeGo_cons_head (a : Nat) (p : MemBlock) (l : Ledger) :
    ∃ d t, freeGo a (p :: l) = d :: t ∧ (d.is_free = true → p.is_free = true) := by
  cases l with
  | nil => exact ⟨p, [], rfl, fun h => h⟩
  | cons curr rest =>
    by_cases hc : curr.offset = a
    · by_cases hf : curr.is_free = true
      · simp only [freeGo, if_pos hc, hf, if_true]
        exact ⟨p, _, rfl, fun h => h⟩
      · simp only [Bool.not_eq_true] at hf
        simp only [freeGo, if_pos hc, hf, Bool.false_eq_true, if_false,
          mergeNextF_eq_absorbNext]
        by_cases hp : p.is_free = true
        · simp only [hp, if_true]
          refine ⟨_, _, rfl, ?_⟩
          simp [hp]
        · simp only [Bool.not_eq_true] at hp
          simp only [hp, Bool.false_eq_true, if_false]
          refine ⟨p, _, rfl, ?_⟩
          simp [hp]
    · simp only [freeGo, if_neg hc]
      exact ⟨p, _, rfl, fun h => h⟩

theorem noAdjFree_freeGo (a : Nat) (l : Ledger) (h : noAdjFree l = true) :
    noAdjFree (freeGo a l) = true := by
  induction l with
  | nil => exact h
  | cons p t ih =>
    cases t with
    | nil => exact h
    | cons curr rest =>
      obtain ⟨hpc, htail⟩ := (noAdj_cons_cons p curr rest).mp h
      by_cases hc : curr.offset = a
      · by_cases hf : curr.is_free = true
        · simp only [freeGo, if_pos hc, hf, if_true]
          exact h
        · simp only [Bool.not_eq_true] at hf
          cases rest with
          | nil =>
            simp only [freeGo, if_pos hc, hf, Bool.false_eq_true, if_false, mergeNextF]
            by_cases hp : p.is_free = true
            · simp [hp, noAdjFree]
            · simp only [Bool.not_eq_true] at hp
              simp [hp, noAdjFree]
          | cons nx rest' =>
            have hnx := (noAdj_cons_cons curr nx rest').mp htail
            by_cases hnf : nx.is_free = true
            · have hr' : noAdjFree rest' = true := noAdj_tail _ _ hnx.2
              simp only [freeGo, if_pos hc, hf, Bool.false_eq_true, if_false,
                mergeNextF, hnf, if_true]
              have hrest'head : ∀ r0 rt, rest' = r0 :: rt → r0.is_free = false := by
                intro r0 rt hre
                subst hre
                rcases ((noAdj_cons_cons nx r0 rt).mp hnx.2).1 with h' | h'
                · rw [h'] at hnf; simp at hnf
                · exact h'
              by_cases hp : p.is_free = true
              · simp only [hp, if_true]
                cases rest' with
                | nil => rfl
                | cons r0 rt =>
                  rw [noAdj_cons_cons]
                  exact ⟨Or.inr (hrest'head r0 rt rfl), hr'⟩
              · simp only [Bool.not_eq_true] at hp
                simp only [hp, Bool.false_eq_true, if_false]
                rw [noAdj_cons_cons]
                refine ⟨Or.inl hp, ?_⟩
                cases rest' with
                | nil => rfl
                | cons r0 rt =>
                  rw [noAdj_cons_cons]
                  exact ⟨Or.inr (hrest'head r0 rt rfl), hr'⟩
            · simp only [Bool.not_eq_true] at hnf
              simp only [freeGo, if_pos hc, hf, Bool.false_eq_true, if_false,
                mergeNextF, hnf, if_false]
              by_cases hp : p.is_free = true
              · simp only [hp, if_true]
                rw [noAdj_cons_cons]
                exact ⟨Or.inr hnf, hnx.2⟩
              · simp only [Bool.not_eq_true] at hp
                simp only [hp, Bool.false_eq_true, if_false]
                rw [noAdj_cons_cons]
                refine ⟨Or.inl hp, ?_⟩
                rw [noAdj_cons_cons]
                exact ⟨Or.inr hnf, hnx.2⟩
      · simp only [freeGo, if_neg hc]
        obtain ⟨d, t2, heq, hdf⟩ := freeGo_cons_head a curr rest
        rw [heq, noAdj_cons_cons]
        constructor
        · by_cases hpf : p.is_free = true
          · right
            by_cases hd : d.is_free = true
            · exfalso
              have hcf := hdf hd
              rcases hpc with h' | h'
              · rw [h'] at hpf; simp at hpf
              · rw [h'] at hcf; simp at hcf
            · simpa using hd
          · left; simpa using hpf
        · rw [← heq]
          exact ih htail

theorem noAdjFree_mem_free (p : Option Nat) (l : Ledger) (h : noAdjFree l = true) :
    noAdjFree (mem_free p l) = true := by
  cases p with
  | none => exact h
  | some a =>
    cases l with
    | nil => exact h
    | cons curr rest =>
      by_cases hc : curr.offset = a
      · by_cases hf : curr.is_free = true
        · simp only [mem_free, if_pos hc, hf, if_true]
          exact h
        · simp only [Bool.not_eq_true] at hf
          simp only [mem_free, if_pos hc, hf, Bool.false_eq_true, if_false]
          cases rest with
          | nil => simp [mergeNextF, noAdjFree]
          | cons nx rest' =>
            have hnx := (noAdj_cons_cons curr nx rest').mp h
            by_cases hnf : nx.is_free = true
            · have hr' : noAdjFree rest' = true := noAdj_tail _ _ hnx.2
              simp only [mergeNextF, hnf, if_true]
              cases rest' with
              | nil => rfl
              | cons r0 rt =>
                rw [noAdj_cons_cons]
                refine ⟨Or.inr ?_, hr'⟩
                rcases ((noAdj_cons_cons nx r0 rt).mp hnx.2).1 with h' | h'
                · rw [h'] at hnf; simp at hnf
                · exact h'
            · simp only [Bool.not_eq_true] at hnf
              simp only [mergeNextF, hnf, Bool.false_eq_true, if_false]
              rw [noAdj_cons_cons]
              exact ⟨Or.inr hnf, hnx.2⟩
      · simp only [mem_free, if_neg hc]
        exact noAdjFree_freeGo a (curr :: rest) h

/-- C2 (amended): after `mem_init c` and any sequence of `mem_alloc` and
`mem_free` calls (no `mem_resize`), the chain never contains two adjacent
descriptors that are both free.  The original claim over sequences that also
contain `mem_resize` is false: the shrink-in-place path of `mem_resize`
inserts a free leftover descriptor without merging it with a free successor
(see the counterexample). -/
theorem no_adjacent_free_blocks_af (c : Nat) (l : Ledger) (h : ReachableAF c l) :
    noAdjFree l = true := by
  induction h with
  | init => rfl
  | alloc n ok hr ih => exact noAdjFree_mem_alloc _ _ _ ih
  | free p hr ih => exact noAdjFree_mem_free _ _ ih

/-- Witness for C2 (amended): the initial single-block ledger. -/
theorem no_adjacent_free_blocks_af_witness :
    noAdjFree (mem_init 10) = true :=
  no_adjacent_free_blocks_af 10 (mem_init 10) ReachableAF.init

/-- Counterexample to C2 as stated: from a 100-byte pool, `mem_alloc 50`
followed by `mem_resize` of that block down to 30 reaches a ledger whose
free leftover `[30, 50)` sits right before the free block `[50, 100)` —
two adjacent free descriptors. -/
theorem resize_shrink_breaks_no_adjacent_free :
    Reachable 100 [⟨0, 30, false⟩, ⟨30, 20, true⟩, ⟨50, 50, true⟩] ∧
      noAdjFree [(⟨0, 30, false⟩ : MemBlock), ⟨30, 20, true⟩, ⟨50, 50, true⟩] = false := by
  constructor
  · have h2 := Reachable.resize (some 0) 30 true
      (Reachable.alloc 50 true (Reachable.init (c := 100)))
    have he : (mem_resize (some 0) 30 true
        (mem_alloc 50 true (mem_init 100)).1).ledger =
        [⟨0, 30, false⟩, ⟨30, 20, true⟩, ⟨50, 50, true⟩] := by decide
    rwa [he] at h2
  · decide
